import Mathlib

/-!
Verification development for the PMM4RPAAI repository.

The repository contains three near-identical Python scripts:

* `total_rework_cost.py`      (cost variant)
* `total_rework_duration.py`  (hours variant; byte-for-byte the same logic as
  the cost variant, only column names and printed labels differ)
* `total_time_reduction.py`   (generic-duration / time variant)

This file shallowly embeds the data model and operations of those scripts.
Python floats are modelled as `ℚ` (exact arithmetic; the scripts only add,
multiply, divide and compare, and the claims under scrutiny are about the
comparison logic, not about IEEE rounding).  The float literal `1e-9` is
modelled as the rational `1/1000000000`.  A raised Python exception is
modelled as `Option.none` in the functions that can raise.

Sorting: the cost and hours variants call
`df.sort_values([key1, key2], ascending=[False, False])`; pandas implements a
multi-column sort with `np.lexsort`, which is stable, and realises descending
order by flipping the factorised codes, so ties on both keys keep their
original relative order — `rankTwoKey` embeds this as a stable insertion
sort on the descending lexicographic key relation.  The time variant calls
`df.sort_values("potential_savings", ascending=False)` with the default
`kind="quicksort"` (numpy introsort): pandas reverses the column, argsorts,
and reverses the resulting indexer, so the order among equal keys is NOT
determined by the program — introsort is unstable in general and falls back
to (stable) insertion sort only on small arrays.  `rankTime` must still fix
one concrete order to be executable; it uses a stable insertion sort on the
descending single-key relation, which coincides with the program on frames
small enough for numpy's insertion-sort path (in particular on every
concrete input evaluated in this file, all of ≤ 3 rows).  No theorem below
asserts tie order for `rankTime`: every property proved about it is either
invariant under permuting equal keys or evaluated on such small inputs.
-/

namespace PMM

/-- A raw cell of the CSV table as pandas hands it to the scripts:
`na` models `None`/`NaN` (anything with `pd.isna(x)` true), `num` a numeric
cell, `str` a textual cell. -/
inductive RawValue where
  | na : RawValue
  | num : ℚ → RawValue
  | str : String → RawValue
deriving DecidableEq, Repr

/-! ### Python string primitives

`str.strip()`, `str.lower()` and `in` are re-implemented on character lists
(rather than through the opaque `String` library functions) so that every
definition in this file evaluates inside the kernel. -/

/-- The characters `str.strip()` removes (ASCII whitespace). -/
def isPySpace (c : Char) : Bool :=
  c == ' ' || c == '\t' || c == '\n' || c == '\r' || c == '\x0B' || c == '\x0C'

def stripChars (cs : List Char) : List Char :=
  ((cs.dropWhile isPySpace).reverse.dropWhile isPySpace).reverse

/-- `s.strip()`. -/
def pyStrip (s : String) : String := String.mk (stripChars s.data)

/-- ASCII lower-casing of one character (`str.lower()` per character; the
column names this tool meets are ASCII). -/
def lowerChar (c : Char) : Char :=
  if 65 ≤ c.toNat ∧ c.toNat ≤ 90 then Char.ofNat (c.toNat + 32) else c

/-- `s.lower()`. -/
def pyLower (s : String) : String := String.mk (s.data.map lowerChar)

/-- `c in s` for a single character. -/
def containsChar (s : String) (c : Char) : Bool := s.data.contains c

/-! ### Number extraction from strings

`parse_rate` (cost and hours variants) extracts the first decimal number in a
string with `re.search(r"[-+]?\d*\.?\d+", s)`.  `digitsRunAux` consumes a
maximal run of ASCII digits; `numAfterDot?` and `matchNumAt` reproduce the
value of the leftmost regex match (the regex is: optional sign, greedy digit
run, optional dot, at least one digit — with backtracking, so e.g. in `"12."`
the match is `"12"`).  `searchNum` scans for the leftmost position at which a
match exists, exactly like `re.search`. -/

/-- Consume a maximal digit run, returning the accumulated value, the number
of digits consumed, and the rest of the characters. -/
def digitsRunAux : List Char → ℕ → ℕ → ℕ × ℕ × List Char
  | c :: cs, acc, n =>
    if c.isDigit then digitsRunAux cs (10 * acc + (c.toNat - 48)) (n + 1)
    else (acc, n, c :: cs)
  | [], acc, n => (acc, n, [])

def digitsRun (cs : List Char) : ℕ × ℕ × List Char := digitsRunAux cs 0 0

/-- The value matched by `\d*\.?\d+` at the head of `cs` (none when the regex
cannot match here), together with the remaining characters.  Matches the
greedy-with-backtracking semantics of Python `re`: `"12.34"` ↦ `12.34`,
`"12."` ↦ `12` (the dot is given back), `".5"` ↦ `0.5`, `"."` ↦ none. -/
def unsignedNum? (cs : List Char) : Option (ℚ × List Char) :=
  let (a, k, cs₁) := digitsRun cs
  match cs₁ with
  | '.' :: cs₂ =>
    let (b, m, cs₃) := digitsRun cs₂
    if m = 0 then
      -- `\d+` cannot match after the dot: backtrack, the dot is not consumed
      if k = 0 then none else some ((a : ℚ), cs₁)
    else some ((a : ℚ) + (b : ℚ) / (10 : ℚ) ^ m, cs₃)
  | _ => if k = 0 then none else some ((a : ℚ), cs₁)

/-- Value of a `[-+]?\d*\.?\d+` match starting exactly here, if any. -/
def matchNumAt : List Char → Option ℚ
  | '+' :: cs => (unsignedNum? cs).map (·.1)
  | '-' :: cs => (unsignedNum? cs).map (fun p => -p.1)
  | cs => (unsignedNum? cs).map (·.1)

/-- `re.search`: value of the leftmost match of `[-+]?\d*\.?\d+`. -/
def searchNum : List Char → Option ℚ
  | [] => none
  | c :: cs =>
    match matchNumAt (c :: cs) with
    | some v => some v
    | none => searchNum cs

/-! ### Python `float(s)`

The time variant calls `float(...)` directly on (cleaned) cell text, which
raises `ValueError` unless the entire string is a float literal.  `pyFloat`
models it, returning `none` for the raising case.  The grammar modelled is
`[sign] (digits [. digits*] | . digits+) [(e|E) [sign] digits+]` with
surrounding whitespace stripped — the forms the repository's data exercises
(`inf`/`nan`/underscore literals are not modelled; no claim touches them). -/

/-- Mantissa part: `digits [. digits*] | . digits+`. -/
def mantissa? (cs : List Char) : Option (ℚ × List Char) :=
  let (a, k, cs₁) := digitsRun cs
  match cs₁ with
  | '.' :: cs₂ =>
    let (b, m, cs₃) := digitsRun cs₂
    if k = 0 ∧ m = 0 then none
    else some ((a : ℚ) + (b : ℚ) / (10 : ℚ) ^ m, cs₃)
  | _ => if k = 0 then none else some ((a : ℚ), cs₁)

/-- Optional exponent part `(e|E) [sign] digits+`; `none` means a malformed
exponent (so the whole literal is invalid). -/
def exponent? : List Char → Option (ℤ × List Char)
  | [] => some (0, [])
  | c :: cs =>
    if c = 'e' ∨ c = 'E' then
      match cs with
      | '+' :: cs₁ =>
        let (d, k, cs₂) := digitsRun cs₁
        if k = 0 then none else some ((d : ℤ), cs₂)
      | '-' :: cs₁ =>
        let (d, k, cs₂) := digitsRun cs₁
        if k = 0 then none else some (-(d : ℤ), cs₂)
      | _ =>
        let (d, k, cs₂) := digitsRun cs
        if k = 0 then none else some ((d : ℤ), cs₂)
    else some (0, c :: cs)

/-- `float(s)` on an already-stripped character list; the whole input must be
consumed. -/
def pyFloatChars (cs : List Char) : Option ℚ :=
  let core : List Char → Option ℚ := fun cs₀ =>
    match mantissa? cs₀ with
    | none => none
    | some (v, cs₁) =>
      match exponent? cs₁ with
      | none => none
      | some (e, cs₂) => if cs₂ = [] then some (v * (10 : ℚ) ^ e) else none
  match cs with
  | '+' :: cs₁ => core cs₁
  | '-' :: cs₁ => (core cs₁).map Neg.neg
  | _ => core cs

/-- Python `float(s)` (strips surrounding whitespace itself). -/
def pyFloat (s : String) : Option ℚ := pyFloatChars (stripChars s.data)

/-! ### The two rate parsers -/

/-- Python `min(a, b)` (returns `a` on ties, which is value-equal either
way). -/
def pyMin (a b : ℚ) : ℚ := if b < a then b else a

/-- Python `max(a, b)`. -/
def pyMax (a b : ℚ) : ℚ := if a < b then b else a

/-- Clamp to `[0, 1]`: `max(0.0, min(1.0, v))`. -/
def clamp (v : ℚ) : ℚ := pyMax 0 (pyMin 1 v)

/-- `parse_rate` of `total_rework_cost.py` lines 41–63 (identical in
`total_rework_duration.py`).  Total — the Python function never raises. -/
def parse_rate : RawValue → ℚ
  | .na => 0
  | .str x =>
    let s := pyStrip x
    if s = "" then 0
    else
      match searchNum s.data with
      | none => 0
      | some v =>
        if containsChar s '%' then clamp (v / 100)
        else clamp (if 1 < v then v / 100 else v)
  | .num v => clamp (if 1 < v then v / 100 else v)

/-- `parse_automation_rate` of `total_time_reduction.py` lines 7–26.
`none` models a raised `ValueError` from `float(...)`.

For a numeric cell the code does `x = str(x).strip()`; `str` of a Python
float never contains `%` and `float(str(v)) == v` (repr round-trips), so the
numeric path is embedded directly on the value.  `x.replace("%", "")`
removes every `%` character. -/
def parse_automation_rate : RawValue → Option ℚ
  | .na => some 0
  | .num v => some (if 1 < v then v / 100 else v)
  | .str x =>
    let s := pyStrip x
    if containsChar s '%' then
      (pyFloat (String.mk (s.data.filter (fun c => c ≠ '%')))).map (· / 100)
    else (pyFloat s).map (fun v => if 1 < v then v / 100 else v)

/-- `Modelled from the spec:` the RateParser reference rule of spec §4.1
("RateParser" contract), stated in the spec's own words, for comparison with
`parse_rate`: missing/empty/unparseable ↦ 0; textual input: extract the first
signed decimal number and honour a percent symbol anywhere in the string;
percent present ↦ divide by 100; otherwise value > 1 ↦ divide by 100, value
≤ 1 kept as-is; always clamp the final result into [0, 1]. -/
def specRate : RawValue → ℚ
  | .na => 0
  | .str x =>
    let s := pyStrip x
    match searchNum s.data with
    | none => 0
    | some v =>
      if containsChar s '%' then clamp (v / 100)
      else if 1 < v then clamp (v / 100) else clamp v
  | .num v => if 1 < v then clamp (v / 100) else clamp v

/-- `pd.to_numeric(col, errors="coerce").fillna(0)` applied to one cell. -/
def toNumeric0 : RawValue → ℚ
  | .na => 0
  | .num v => v
  | .str s => (pyFloat s).getD 0

end PMM

namespace PMM

/-! ### Records and ranking -/

/-- One cleaned row of the working frame: the raw activity cell, the numeric
metric value (after `pd.to_numeric(...).fillna(0)`), and the normalized
automation rate. -/
structure Rec where
  activity : RawValue
  metric : ℚ
  rate : ℚ
deriving DecidableEq, Repr

/-- A row extended with its reducible amount (`metric_value * rate`),
i.e. `reducible_rework_cost` / `reducible_rework_hours` /
`potential_savings`. -/
structure RRec where
  activity : RawValue
  metric : ℚ
  rate : ℚ
  reducible : ℚ
deriving DecidableEq, Repr

def toRRec (r : Rec) : RRec := ⟨r.activity, r.metric, r.rate, r.metric * r.rate⟩

/-- Sort relation of the cost/hours variants:
`sort_values(["reducible", "metric"], ascending=[False, False])` —
descending lexicographic on (reducible amount, metric value). -/
def rankGE (a b : RRec) : Prop :=
  b.reducible < a.reducible ∨ (a.reducible = b.reducible ∧ b.metric ≤ a.metric)

instance : DecidableRel rankGE := fun a b => by
  unfold rankGE; exact inferInstance

instance : IsTotal RRec rankGE where
  total a b := by
    rcases lt_trichotomy a.reducible b.reducible with h | h | h
    · exact Or.inr (Or.inl h)
    · rcases le_total b.metric a.metric with hm | hm
      · exact Or.inl (Or.inr ⟨h, hm⟩)
      · exact Or.inr (Or.inr ⟨h.symm, hm⟩)
    · exact Or.inl (Or.inl h)

instance : IsTrans RRec rankGE where
  trans a b c hab hbc := by
    rcases hab with h₁ | ⟨e₁, m₁⟩
    · rcases hbc with h₂ | ⟨e₂, m₂⟩
      · exact Or.inl (h₂.trans h₁)
      · exact Or.inl (e₂ ▸ h₁)
    · rcases hbc with h₂ | ⟨e₂, m₂⟩
      · exact Or.inl (e₁ ▸ h₂)
      · exact Or.inr ⟨e₁.trans e₂, m₂.trans m₁⟩

/-- Sort relation of the time variant:
`sort_values("potential_savings", ascending=False)` — descending on the
reducible amount only. -/
def timeGE (a b : RRec) : Prop := b.reducible ≤ a.reducible

instance : DecidableRel timeGE := fun a b => by
  unfold timeGE; exact inferInstance

instance : IsTotal RRec timeGE where
  total a b := le_total b.reducible a.reducible

instance : IsTrans RRec timeGE where
  trans _ _ _ hab hbc := le_trans hbc hab

/-- `ranked` of the cost and hours variants (lines 109–112 of both files). -/
def rankTwoKey (recs : List Rec) : List RRec :=
  List.insertionSort rankGE (recs.map toRRec)

/-- `ranked` of the time variant (`total_time_reduction.py` line 75).  The
program leaves the order among equal `potential_savings` unspecified
(default quicksort); this embedding fixes it to the original input order,
which matches the program exactly on the small frames where numpy takes its
insertion-sort path — see the sorting note at the top of the file. -/
def rankTime (recs : List Rec) : List RRec :=
  List.insertionSort timeGE (recs.map toRRec)

/-! ### The greedy selection walk -/

/-- The selection loop common to all three variants, parameterized by the
tolerance added to the cumulative sum in the break test:

    for _, row in ranked.iterrows():
        if row[reducible] <= 0: continue
        selected.append(row)
        cum += row[reducible]
        if cum + tol >= target: break

The cost and hours variants use `tol = 1e-9`
(lines 115–123); the time variant's break test is `cumulative >= target`,
i.e. `tol = 0` (lines 78–89). -/
def selectAux (tol target : ℚ) : List RRec → ℚ → List RRec
  | [], _ => []
  | r :: rs, cum =>
    if r.reducible ≤ 0 then selectAux tol target rs cum
    else if target ≤ cum + r.reducible + tol then [r]
    else r :: selectAux tol target rs (cum + r.reducible)

/-- `1e-9` of the cost/hours break test, as an exact rational. -/
def tolCost : ℚ := 1 / 1000000000

def selectCost (target : ℚ) (ranked : List RRec) : List RRec :=
  selectAux tolCost target ranked 0

def selectTime (target : ℚ) (ranked : List RRec) : List RRec :=
  selectAux 0 target ranked 0

/-- The records of `l` with strictly positive reducible amount — the ones the
walk never skips. -/
def posRed (l : List RRec) : List RRec :=
  l.filter (fun r => decide (0 < r.reducible))

def sumRed (l : List RRec) : ℚ := (l.map (·.reducible)).sum

def totalOf (recs : List Rec) : ℚ := (recs.map (·.metric)).sum

/-- `target = total * (goal / 100)`. -/
def targetOf (recs : List Rec) (goal : ℚ) : ℚ := totalOf recs * (goal / 100)

/-! ### The per-variant cores (zero-total check, ranking, selection) -/

/-- Terminal state of the computation after the cleaned records exist. -/
inductive CoreResult where
  | zeroTotal : CoreResult
  | results : List RRec → List RRec → ℚ → CoreResult
deriving DecidableEq, Repr

/-- Cost variant core (`total_rework_cost.py` lines 99–123): short-circuit on
`total_cost <= 0`, else rank by (reducible, metric) descending and walk with
tolerance `1e-9`.  The hours variant (`total_rework_duration.py` lines
99–123) is the same function verbatim. -/
def costCore (recs : List Rec) (goal : ℚ) : CoreResult :=
  if totalOf recs ≤ 0 then .zeroTotal
  else
    let target := targetOf recs goal
    let ranked := rankTwoKey recs
    let sel := selectCost target ranked
    .results ranked sel (sumRed sel)

/-- Time variant core (`total_time_reduction.py` lines 61–89): short-circuit
only on `total_execution_time == 0`, rank by reducible amount alone, walk
with no tolerance. -/
def timeCore (recs : List Rec) (goal : ℚ) : CoreResult :=
  if totalOf recs = 0 then .zeroTotal
  else
    let target := targetOf recs goal
    let ranked := rankTime recs
    let sel := selectTime target ranked
    .results ranked sel (sumRed sel)

/-! ### Column resolution and the full drivers -/

/-- An input CSV as pandas presents it: column names plus rows of cells
(each row aligned with `cols`). -/
structure Table where
  cols : List String
  rows : List (List RawValue)
deriving Repr

/-- `c.strip().lower()`. -/
def normName (c : String) : String := pyLower (pyStrip c)

/-- `find_col` (both cost and hours variants, lines 31–38): build
`{c.strip().lower(): c for c in df.columns}` (later duplicates overwrite
earlier ones, hence the reversed search) and return the stored original name
for the first candidate whose normalized form is a key. -/
def findCol (cols : List String) (cands : List String) : Option String :=
  cands.findSome? (fun cand => cols.reverse.find? (fun c => normName c = normName cand))

def actCands : List String := ["value", "activity", "activity_name", "name"]
def costCands : List String :=
  ["total rework cost", "rework_cost", "rework cost", "total_rework_cost"]
def hoursCands : List String := ["total rework hours", "rework_hours", "rework hours"]
def rateCands : List String := ["automation_rate", "automation rate", "automation"]

/-- The `missing` list built by `total_rework_cost.py` lines 80–86. -/
def costMissing (cols : List String) : List String :=
  (if findCol cols actCands = none then ["value/activity"] else []) ++
    (if findCol cols costCands = none then ["Total rework cost"] else []) ++
      (if findCol cols rateCands = none then ["automation_rate"] else [])

/-- The first missing required column found by the loop in
`total_time_reduction.py` lines 50–54 (`sys.exit(1)` fires on the first
one, so later missing columns are never reported). -/
def timeRequired : List String := ["value", "total_duration", "automation_rate"]

def timeFirstMissing (cols : List String) : Option String :=
  timeRequired.find? (fun c => !(cols.contains c))

/-- Cell of `row` under column `name` (label-based `df[name]` access). -/
def cellAt (cols : List String) (name : String) (row : List RawValue) : RawValue :=
  match cols.findIdx? (fun c => c = name) with
  | some i => row.getD i RawValue.na
  | none => RawValue.na

/-- Observable outcome of one run of a script. -/
inductive Outcome where
  | missingCols : List String → List String → ℕ → Outcome
  | zeroTotal : String → ℕ → Outcome
  | results : List RRec → List RRec → ℚ → ℕ → Outcome
  | exception : Outcome
deriving DecidableEq, Repr

/-- Cell cleaning of the cost variant (lines 93–97): select the three
resolved columns, coerce the metric column, normalize the rate column. -/
def costClean (t : Table) (a c r : String) : List Rec :=
  t.rows.map (fun row =>
    Rec.mk (cellAt t.cols a row) (toNumeric0 (cellAt t.cols c row))
      (parse_rate (cellAt t.cols r row)))

/-- `main` of `total_rework_cost.py` (the hours variant differs only in the
candidate list `hoursCands` and in printed labels): resolve the three
columns, report all missing ones with exit code 2, clean the cells, then run
the core; the zero-total branch prints a message and returns 0. -/
def costMain (t : Table) (goal : ℚ) : Outcome :=
  match findCol t.cols actCands, findCol t.cols costCands, findCol t.cols rateCands with
  | some a, some c, some r =>
    match costCore (costClean t a c r) goal with
    | .zeroTotal => .zeroTotal "Total rework cost is 0. Nothing to reduce." 0
    | .results ranked sel cum => .results ranked sel cum 0
  | _, _, _ => .missingCols (costMissing t.cols) t.cols 2

/-- Cell cleaning of the time variant (lines 57–58, after the columns were
normalized in place): coerce the metric column, apply
`parse_automation_rate` to the whole rate column — `none` when any rate
cell makes `float` raise, which aborts the run. -/
def timeClean (t : Table) : Option (List Rec) :=
  t.rows.mapM (fun row =>
    (parse_automation_rate (cellAt (t.cols.map normName) "automation_rate" row)).map
      (fun rate =>
        Rec.mk (cellAt (t.cols.map normName) "value" row)
          (toNumeric0 (cellAt (t.cols.map normName) "total_duration" row)) rate))

/-- `main` of `total_time_reduction.py`: normalize all column names, exit 1
at the FIRST missing required column, clean cells (an unparseable rate cell
raises and aborts the run), then run the core; `sys.exit(0)` on zero
total. -/
def timeMain (t : Table) (goal : ℚ) : Outcome :=
  match timeFirstMissing (t.cols.map normName) with
  | some c => .missingCols [c] (t.cols.map normName) 1
  | none =>
    match timeClean t with
    | none => .exception
    | some recs =>
      match timeCore recs goal with
      | .zeroTotal => .zeroTotal "Total execution time is 0. Nothing to reduce." 0
      | .results ranked sel cum => .results ranked sel cum 0

end PMM

namespace PMM

/-! ### Lemmas about the selection walk -/

theorem sumRed_nil : sumRed [] = 0 := rfl

theorem sumRed_cons (r : RRec) (l : List RRec) :
    sumRed (r :: l) = r.reducible + sumRed l := by
  simp [sumRed]

theorem posRed_nil : posRed [] = [] := rfl

theorem posRed_cons (r : RRec) (l : List RRec) :
    posRed (r :: l) = if 0 < r.reducible then r :: posRed l else posRed l := by
  by_cases h : 0 < r.reducible
  · simp [posRed, List.filter_cons, h]
  · simp [posRed, List.filter_cons, h]

theorem selectAux_nil (tol target cum : ℚ) : selectAux tol target [] cum = [] := rfl

theorem selectAux_cons_skip (tol target cum : ℚ) (x : RRec) (xs : List RRec)
    (h : x.reducible ≤ 0) :
    selectAux tol target (x :: xs) cum = selectAux tol target xs cum := by
  rw [selectAux, if_pos h]

theorem selectAux_cons_stop (tol target cum : ℚ) (x : RRec) (xs : List RRec)
    (h : ¬x.reducible ≤ 0) (hbrk : target ≤ cum + x.reducible + tol) :
    selectAux tol target (x :: xs) cum = [x] := by
  rw [selectAux, if_neg h, if_pos hbrk]

theorem selectAux_cons_go (tol target cum : ℚ) (x : RRec) (xs : List RRec)
    (h : ¬x.reducible ≤ 0) (hbrk : ¬target ≤ cum + x.reducible + tol) :
    selectAux tol target (x :: xs) cum =
      x :: selectAux tol target xs (cum + x.reducible) := by
  rw [selectAux, if_neg h, if_neg hbrk]

/-- Every record the walk keeps has strictly positive reducible amount. -/
theorem selectAux_mem_pos (tol target : ℚ) :
    ∀ (l : List RRec) (cum : ℚ) (r : RRec),
      r ∈ selectAux tol target l cum → 0 < r.reducible
  | [], _, _, h => by simp [selectAux_nil] at h
  | x :: xs, cum, r, h => by
    by_cases hle : x.reducible ≤ 0
    · rw [selectAux_cons_skip _ _ _ _ _ hle] at h
      exact selectAux_mem_pos tol target xs cum r h
    · by_cases hbrk : target ≤ cum + x.reducible + tol
      · rw [selectAux_cons_stop _ _ _ _ _ hle hbrk] at h
        rw [List.mem_singleton] at h
        exact h ▸ lt_of_not_le hle
      · rw [selectAux_cons_go _ _ _ _ _ hle hbrk] at h
        rcases List.mem_cons.mp h with he | hm
        · exact he ▸ lt_of_not_le hle
        · exact selectAux_mem_pos tol target xs _ r hm

/-- The walk's output is an initial segment of the positive-reducible
subsequence of the ranked list. -/
theorem selectAux_front (tol target : ℚ) :
    ∀ (l : List RRec) (cum : ℚ),
      ∃ rest, selectAux tol target l cum ++ rest = posRed l
  | [], _ => ⟨[], rfl⟩
  | x :: xs, cum => by
    rw [posRed_cons]
    by_cases hle : x.reducible ≤ 0
    · rw [selectAux_cons_skip _ _ _ _ _ hle, if_neg (not_lt.mpr hle)]
      exact selectAux_front tol target xs cum
    · rw [if_pos (lt_of_not_le hle)]
      by_cases hbrk : target ≤ cum + x.reducible + tol
      · rw [selectAux_cons_stop _ _ _ _ _ hle hbrk]
        exact ⟨posRed xs, rfl⟩
      · rw [selectAux_cons_go _ _ _ _ _ hle hbrk]
        obtain ⟨rest, hrest⟩ := selectAux_front tol target xs (cum + x.reducible)
        exact ⟨rest, by rw [List.cons_append, hrest]⟩

/-- If the walk did not exhaust all positive-reducible records then it
stopped because the break test fired: the accumulated sum plus the
tolerance reached the target. -/
theorem selectAux_stop (tol target : ℚ) :
    ∀ (l : List RRec) (cum : ℚ),
      selectAux tol target l cum ≠ posRed l →
      target ≤ cum + sumRed (selectAux tol target l cum) + tol
  | [], cum, h => absurd rfl h
  | x :: xs, cum, h => by
    rw [posRed_cons] at h
    by_cases hle : x.reducible ≤ 0
    · rw [selectAux_cons_skip _ _ _ _ _ hle] at h ⊢
      rw [if_neg (not_lt.mpr hle)] at h
      exact selectAux_stop tol target xs cum h
    · rw [if_pos (lt_of_not_le hle)] at h
      by_cases hbrk : target ≤ cum + x.reducible + tol
      · rw [selectAux_cons_stop _ _ _ _ _ hle hbrk]
        rw [sumRed_cons, sumRed_nil]
        linarith
      · rw [selectAux_cons_go _ _ _ _ _ hle hbrk] at h ⊢
        have h' : selectAux tol target xs (cum + x.reducible) ≠ posRed xs := by
          intro he; exact h (by rw [he])
        have ih := selectAux_stop tol target xs (cum + x.reducible) h'
        rw [sumRed_cons]
        linarith

/-- Before any non-final appended record the break test had not fired yet:
every nonempty strict initial segment of the walk's output sums, with the
tolerance, to strictly below the target. -/
theorem selectAux_below (tol target : ℚ) :
    ∀ (l : List RRec) (cum : ℚ) (p : List RRec),
      (∃ rest, p ++ rest = selectAux tol target l cum) →
      p ≠ selectAux tol target l cum → p ≠ [] →
      cum + sumRed p + tol < target
  | [], cum, p, ⟨rest, hrest⟩, hne, _ => by
    rw [selectAux_nil] at hrest hne
    exact absurd (List.append_eq_nil.mp hrest).1 hne
  | x :: xs, cum, p, ⟨rest, hrest⟩, hne, hnil => by
    by_cases hle : x.reducible ≤ 0
    · rw [selectAux_cons_skip _ _ _ _ _ hle] at hrest hne
      exact selectAux_below tol target xs cum p ⟨rest, hrest⟩ hne hnil
    · by_cases hbrk : target ≤ cum + x.reducible + tol
      · rw [selectAux_cons_stop _ _ _ _ _ hle hbrk] at hrest hne
        rcases p with _ | ⟨a, p'⟩
        · exact absurd rfl hnil
        · rw [List.cons_append, List.cons.injEq] at hrest
          have hp' : p' = [] := (List.append_eq_nil.mp hrest.2).1
          exact absurd (by rw [hrest.1, hp']) hne
      · rw [selectAux_cons_go _ _ _ _ _ hle hbrk] at hrest hne
        rcases p with _ | ⟨a, p'⟩
        · exact absurd rfl hnil
        · rw [List.cons_append, List.cons.injEq] at hrest
          obtain ⟨ha, hrest'⟩ := hrest
          subst ha
          by_cases hp' : p' = []
          · subst hp'
            rw [sumRed_cons, sumRed_nil]
            linarith
          · have hne' : p' ≠ selectAux tol target xs (cum + a.reducible) := by
              intro he; exact hne (by rw [he])
            have ih := selectAux_below tol target xs (cum + a.reducible) p'
              ⟨rest, hrest'⟩ hne' hp'
            rw [sumRed_cons]
            linarith

/-- If some record has positive reducible amount, the walk keeps at least
one record. -/
theorem selectAux_ne_nil (tol target : ℚ) :
    ∀ (l : List RRec) (cum : ℚ),
      (∃ r ∈ l, 0 < r.reducible) → selectAux tol target l cum ≠ []
  | [], _, ⟨r, hr, _⟩, _ => by simp at hr
  | x :: xs, cum, ⟨r, hr, hrpos⟩, h => by
    by_cases hle : x.reducible ≤ 0
    · rw [selectAux_cons_skip _ _ _ _ _ hle] at h
      rcases List.mem_cons.mp hr with he | hm
      · exact absurd (he ▸ hrpos) (not_lt.mpr hle)
      · exact selectAux_ne_nil tol target xs cum ⟨r, hm, hrpos⟩ h
    · by_cases hbrk : target ≤ cum + x.reducible + tol
      · rw [selectAux_cons_stop _ _ _ _ _ hle hbrk] at h
        exact List.cons_ne_nil x [] h
      · rw [selectAux_cons_go _ _ _ _ _ hle hbrk] at h
        exact List.cons_ne_nil x _ h

/-- With a nonnegative tolerance and a target already met on entry (in
particular a target ≤ 0 at the start of the walk), the walk keeps exactly
the first positive-reducible record, if any. -/
theorem selectAux_take_one (tol target : ℚ) (htol : 0 ≤ tol) :
    ∀ (l : List RRec) (cum : ℚ), target ≤ cum →
      selectAux tol target l cum = (posRed l).take 1
  | [], _, _ => rfl
  | x :: xs, cum, hcum => by
    rw [posRed_cons]
    by_cases hle : x.reducible ≤ 0
    · rw [selectAux_cons_skip _ _ _ _ _ hle, if_neg (not_lt.mpr hle)]
      exact selectAux_take_one tol target htol xs cum hcum
    · have hpos := lt_of_not_le hle
      rw [if_pos hpos, selectAux_cons_stop _ _ _ _ _ hle (by linarith),
        List.take_succ_cons, List.take_zero]

end PMM

namespace PMM
/-! ### Stability of the embedded sorts

A stable sort keeps records with exactly equal sort keys in their original
relative order.  Phrased on lists: filtering the sorted list down to any one
tie class of the keys gives the same list as filtering the input.  The
lemmas hold for any relation `r` under which all members of the class are
mutually related. -/

theorem filter_orderedInsert_of_neg {r : RRec → RRec → Prop} [DecidableRel r]
    (p : RRec → Bool) (a : RRec) (ha : p a = false) :
    ∀ l : List RRec, (List.orderedInsert r a l).filter p = l.filter p
  | [] => by simp [List.orderedInsert, ha]
  | b :: l => by
    rw [List.orderedInsert]
    by_cases hr : r a b
    · rw [if_pos hr, List.filter_cons_of_neg (by simp [ha])]
    · rw [if_neg hr]
      by_cases hb : p b = true
      · rw [List.filter_cons_of_pos hb, List.filter_cons_of_pos hb,
          filter_orderedInsert_of_neg p a ha l]
      · rw [List.filter_cons_of_neg hb, List.filter_cons_of_neg hb]
        exact filter_orderedInsert_of_neg p a ha l

theorem filter_orderedInsert_of_pos {r : RRec → RRec → Prop} [DecidableRel r]
    (p : RRec → Bool) (a : RRec) (ha : p a = true)
    (hall : ∀ b, p b = true → r a b) :
    ∀ l : List RRec, (List.orderedInsert r a l).filter p = a :: l.filter p
  | [] => by simp [List.orderedInsert, ha]
  | b :: l => by
    rw [List.orderedInsert]
    by_cases hr : r a b
    · rw [if_pos hr, List.filter_cons_of_pos ha]
    · rw [if_neg hr]
      have hb : ¬p b = true := fun hb => hr (hall b hb)
      rw [List.filter_cons_of_neg hb, List.filter_cons_of_neg hb]
      exact filter_orderedInsert_of_pos p a ha hall l

/-- Stability of `List.insertionSort`: the sublist formed by any tie class
of `r` is untouched by the sort. -/
theorem filter_insertionSort {r : RRec → RRec → Prop} [DecidableRel r]
    (p : RRec → Bool) (hkey : ∀ a b, p a = true → p b = true → r a b) :
    ∀ l : List RRec, (List.insertionSort r l).filter p = l.filter p
  | [] => rfl
  | a :: l => by
    rw [List.insertionSort]
    by_cases ha : p a = true
    · rw [filter_orderedInsert_of_pos p a ha (fun b hb => hkey a b ha hb),
        filter_insertionSort p hkey l, List.filter_cons_of_pos ha]
    · rw [filter_orderedInsert_of_neg p a (by simpa using ha),
        filter_insertionSort p hkey l, List.filter_cons_of_neg ha]

/-! ### The cost/hours rate parser meets the spec's reference rule -/

theorem clamp_ite (c : Prop) [Decidable c] (a b : ℚ) :
    clamp (if c then a else b) = if c then clamp a else clamp b := by
  by_cases h : c
  · rw [if_pos h, if_pos h]
  · rw [if_neg h, if_neg h]

theorem parse_rate_eq_specRate : ∀ x, parse_rate x = specRate x
  | .na => rfl
  | .num v => by
    rw [parse_rate, specRate, clamp_ite]
  | .str x => by
    rw [parse_rate, specRate]
    by_cases he : pyStrip x = ""
    · rw [if_pos he, he]
      rfl
    · rw [if_neg he]
      cases searchNum (pyStrip x).data with
      | none => rfl
      | some v =>
        show (if containsChar (pyStrip x) '%' then clamp (v / 100)
            else clamp (if 1 < v then v / 100 else v)) =
          (if containsChar (pyStrip x) '%' then clamp (v / 100)
            else if 1 < v then clamp (v / 100) else clamp v)
        rw [clamp_ite]

end PMM

namespace PMM

/-! ## Claim theorems -/

/-- C2 (code_bug): the cost/hours parser `parse_rate` equals the spec's
reference rule (extract number, honour `%`, divide by 100 when `> 1`, clamp
into `[0,1]`) and meets all the claim's example equations; but the time
variant's `parse_automation_rate` never clamps, contradicting both the claim
and its own docstring ("Returns: value between 0 and 1"):
`parse_automation_rate(150) = 1.5` (claim: `1.0`) and
`parse_automation_rate(-5) = -5.0` (claim: `0.0`). -/
theorem c2_rate_parser_rule :
    (∀ x, parse_rate x = specRate x) ∧
    parse_rate (.str "20%") = 1/5 ∧
    parse_rate (.num 20) = 1/5 ∧
    parse_rate (.str "20") = 1/5 ∧
    parse_rate (.num (1/5)) = 1/5 ∧
    parse_rate (.num 150) = 1 ∧
    parse_rate (.num (-5)) = 0 ∧
    parse_automation_rate (.num 150) = some (3/2) ∧
    parse_automation_rate (.num (-5)) = some (-5) :=
  ⟨parse_rate_eq_specRate, by with_unfolding_all decide, by with_unfolding_all decide,
    by with_unfolding_all decide, by with_unfolding_all decide,
    by with_unfolding_all decide, by with_unfolding_all decide,
    by with_unfolding_all decide, by with_unfolding_all decide⟩

/-- C3 counterexample: the time variant's rate parser does not replace an
unparseable cell by `0.0` — `float("abc")` raises `ValueError` (modelled by
`none`), aborting the whole run; the empty string raises too. -/
theorem c3_counterexample :
    parse_automation_rate (.str "abc") = none ∧
    parse_automation_rate (.str "abc") ≠ some 0 ∧
    parse_automation_rate (.str "") = none := by
  refine ⟨rfl, by decide, rfl⟩

/-- C3 (amended): the cost/hours parser `parse_rate` returns `0.0` on
missing, empty and unparseable input and never raises (it is a total
function); the time variant's parser returns `0.0` only on missing
(`pd.isna`) input and raises on empty or unparseable text; a non-numeric
metric cell is coerced to `0.0` (`to_numeric(errors="coerce").fillna(0)`)
in all variants. -/
theorem c3_local_recovery :
    parse_rate .na = 0 ∧
    parse_rate (.str "") = 0 ∧
    (∀ s, searchNum (pyStrip s).data = none → parse_rate (.str s) = 0) ∧
    parse_automation_rate .na = some 0 ∧
    toNumeric0 .na = 0 ∧
    (∀ s, pyFloat s = none → toNumeric0 (.str s) = 0) := by
  refine ⟨rfl, rfl, ?_, rfl, rfl, ?_⟩
  · intro s h
    rw [parse_rate]
    by_cases he : pyStrip s = ""
    · rw [if_pos he]
    · rw [if_neg he, h]
  · intro s h
    rw [toNumeric0, h]
    rfl

/-- Witness for C3: the amended theorem applied at the concrete unparseable
inputs `" abc "` (rate cell) and `"x1"` (metric cell). -/
theorem c3_local_recovery_witness :
    parse_rate (.str " abc ") = 0 ∧ toNumeric0 (.str "x1") = 0 :=
  ⟨c3_local_recovery.2.2.1 " abc " (by decide),
    c3_local_recovery.2.2.2.2.2 "x1" (by decide)⟩

end PMM

namespace PMM

/-- Two-record input on which the cost/hours sort and the time sort
disagree: equal reducible amounts (50), different metric values. -/
def tieRecs : List Rec := [⟨.str "A", 50, 1⟩, ⟨.str "B", 100, 1/2⟩]

/-- C1 counterexample: in the generic-duration variant the ranked sequence
keeps record `A` (metric 50) before record `B` (metric 100) although their
reducible amounts are equal — the record with the greater metric value does
NOT precede, because `total_time_reduction.py` line 75 sorts by
`potential_savings` alone.  (The cost/hours order on the same input is
`[B, A]`, as the claim demands.) -/
theorem c1_counterexample :
    rankTime tieRecs = [⟨.str "A", 50, 1, 50⟩, ⟨.str "B", 100, 1/2, 50⟩] ∧
    rankTwoKey tieRecs = [⟨.str "B", 100, 1/2, 50⟩, ⟨.str "A", 50, 1, 50⟩] ∧
    (⟨.str "A", 50, 1, 50⟩ : RRec).reducible = (⟨.str "B", 100, 1/2, 50⟩ : RRec).reducible ∧
    (⟨.str "A", 50, 1, 50⟩ : RRec).metric < (⟨.str "B", 100, 1/2, 50⟩ : RRec).metric := by
  refine ⟨by with_unfolding_all decide, by with_unfolding_all decide,
    by with_unfolding_all decide, by with_unfolding_all decide⟩

/-- C1 (amended): in all three variants `ranked` is sorted non-increasing by
`reducible_amount`; the tie-break by greater `metric_value` holds in the
cost and hours variants (pairwise `rankGE`), while the generic-duration
variant sorts by `reducible_amount` alone (pairwise `timeGE`) with no
metric tie-break. -/
theorem c1_ranking_order (recs : List Rec) :
    List.Sorted rankGE (rankTwoKey recs) ∧
    List.Sorted (fun a b => b.reducible ≤ a.reducible) (rankTwoKey recs) ∧
    List.Sorted timeGE (rankTime recs) := by
  refine ⟨List.sorted_insertionSort rankGE _, ?_, List.sorted_insertionSort timeGE _⟩
  refine List.Pairwise.imp ?_ (List.sorted_insertionSort rankGE (recs.map toRRec))
  intro a b h
  rcases h with h | ⟨he, _⟩
  · exact le_of_lt h
  · exact le_of_eq he.symm

/-- The tie class of records whose two sort keys are exactly `(v, m)`. -/
def keyP (v m : ℚ) : RRec → Bool := fun x => decide (x.reducible = v ∧ x.metric = m)

/-- Stability of the cost/hours ranking (the multi-column pandas sort, a
stable `np.lexsort` over flipped codes): for every exact tie class on
(reducible_amount, metric_value), the ranked output lists its members in
their original relative input order.  No such statement is made for
`rankTime`: the time variant's single-column `sort_values` uses numpy's
default quicksort, whose tie order the program does not determine, so the
tie order `rankTime` exhibits is a modelling choice, not a derived
property. -/
theorem rankTwoKey_stable (recs : List Rec) (v m : ℚ) :
    (rankTwoKey recs).filter (keyP v m) = (recs.map toRRec).filter (keyP v m) := by
  refine filter_insertionSort (keyP v m) ?_ _
  intro a b ha hb
  rw [keyP, decide_eq_true_iff] at ha hb
  exact Or.inr ⟨ha.1.trans hb.1.symm, le_of_eq (hb.2.trans ha.2.symm)⟩

end PMM

namespace PMM

/-- Record literals used by the concrete selection examples. -/
def wr1 : RRec := ⟨.str "a", 5, 1, 5⟩
def wr2 : RRec := ⟨.str "b", 4, 1, 4⟩
def wr3 : RRec := ⟨.str "c", 3, 1, 3⟩

/-- Target strictly between 50 and 50 + 1e-9, exposing the missing
tolerance in the time variant's break test. -/
def c4target : ℚ := 50 + 1/2000000000

/-- C4 counterexample: on two records of reducible amount 50 and a target of
50 + 5e-10, the cumulative sum after the first record satisfies
`cumulative + 1e-9 >= target`, so the claimed break rule would stop there
(as the cost variant does) — but the time variant's walk does not break and
selects both records: its break test is `cumulative >= target` with no
tolerance. -/
theorem c4_counterexample :
    selectTime c4target [⟨.str "A", 50, 1, 50⟩, ⟨.str "B", 50, 1, 50⟩] =
      [⟨.str "A", 50, 1, 50⟩, ⟨.str "B", 50, 1, 50⟩] ∧
    c4target ≤ sumRed [(⟨.str "A", 50, 1, 50⟩ : RRec)] + tolCost ∧
    selectCost c4target [⟨.str "A", 50, 1, 50⟩, ⟨.str "B", 50, 1, 50⟩] =
      [⟨.str "A", 50, 1, 50⟩] := by
  refine ⟨by with_unfolding_all decide, by with_unfolding_all decide,
    by with_unfolding_all decide⟩

/-- C4 (amended): the cost and hours variants break exactly when
`cumulative + 1e-9 >= target_amount`; the generic-duration variant breaks
exactly when `cumulative >= target_amount`, with no tolerance.  Precisely:
each walk keeps an initial segment of the positive-reducible records; if it
kept less than all of them, its final cumulative sum (plus the variant's
tolerance) reached the target; and every earlier nonempty stage of the walk
was still strictly below the target (with the same tolerance). -/
theorem c4_stop_rule (target : ℚ) (ranked : List RRec) :
    (∃ rest, selectCost target ranked ++ rest = posRed ranked) ∧
    (selectCost target ranked ≠ posRed ranked →
      target ≤ sumRed (selectCost target ranked) + tolCost) ∧
    (∀ p, (∃ rest, p ++ rest = selectCost target ranked) →
      p ≠ selectCost target ranked → p ≠ [] → sumRed p + tolCost < target) ∧
    (∃ rest, selectTime target ranked ++ rest = posRed ranked) ∧
    (selectTime target ranked ≠ posRed ranked →
      target ≤ sumRed (selectTime target ranked)) ∧
    (∀ p, (∃ rest, p ++ rest = selectTime target ranked) →
      p ≠ selectTime target ranked → p ≠ [] → sumRed p < target) := by
  refine ⟨selectAux_front tolCost target ranked 0, ?_, ?_,
    selectAux_front 0 target ranked 0, ?_, ?_⟩
  · intro h
    have hs := selectAux_stop tolCost target ranked 0 h
    rw [selectCost]
    linarith
  · intro p hseg hne hnil
    have hb := selectAux_below tolCost target ranked 0 p hseg hne hnil
    linarith
  · intro h
    have hs := selectAux_stop 0 target ranked 0 h
    rw [selectTime]
    linarith
  · intro p hseg hne hnil
    have hb := selectAux_below 0 target ranked 0 p hseg hne hnil
    linarith

/-- Witness for C4: the amended stop rule applied to the concrete ranked
list `[5, 4, 3]` (by reducible amount) with target 8 — both walks keep
`[5, 4]`, the stop bound holds at the end, and the stage after just `[5]`
was still below the target. -/
theorem c4_stop_rule_witness :
    (8 : ℚ) ≤ sumRed (selectCost 8 [wr1, wr2, wr3]) + tolCost ∧
    sumRed [wr1] + tolCost < 8 ∧
    (8 : ℚ) ≤ sumRed (selectTime 8 [wr1, wr2, wr3]) ∧
    sumRed [wr1] < 8 :=
  ⟨(c4_stop_rule 8 [wr1, wr2, wr3]).2.1 (by with_unfolding_all decide),
    (c4_stop_rule 8 [wr1, wr2, wr3]).2.2.1 [wr1]
      ⟨[wr2], by with_unfolding_all decide⟩ (by with_unfolding_all decide)
      (by with_unfolding_all decide),
    (c4_stop_rule 8 [wr1, wr2, wr3]).2.2.2.2.1 (by with_unfolding_all decide),
    (c4_stop_rule 8 [wr1, wr2, wr3]).2.2.2.2.2 [wr1]
      ⟨[wr2], by with_unfolding_all decide⟩ (by with_unfolding_all decide)
      (by with_unfolding_all decide)⟩

/-- C5 (confirmed): no record whose reducible amount is ≤ 0 ever appears in
the selected subset, in any variant, whatever the target (in particular
when the goal is unreachable): membership in the walk's output implies
strictly positive reducible amount. -/
theorem c5_zero_skip (target : ℚ) (ranked : List RRec) (r : RRec) :
    (r ∈ selectCost target ranked → 0 < r.reducible) ∧
    (r ∈ selectTime target ranked → 0 < r.reducible) :=
  ⟨selectAux_mem_pos tolCost target ranked 0 r,
    selectAux_mem_pos 0 target ranked 0 r⟩

/-- Witness for C5: applied to the selected record of a concrete
one-record walk (in both variants). -/
theorem c5_zero_skip_witness :
    (0 : ℚ) < wr1.reducible ∧ (0 : ℚ) < wr1.reducible :=
  ⟨(c5_zero_skip 3 [wr1] wr1).1 (by with_unfolding_all decide),
    (c5_zero_skip 3 [wr1] wr1).2 (by with_unfolding_all decide)⟩

end PMM

namespace PMM

/-- Removing the walk's last kept record drops the cumulative sum strictly
below the target, provided the target is positive and the walk stopped
early. -/
theorem select_dropLast_lt (tol target : ℚ) (htol : 0 ≤ tol) (ranked : List RRec)
    (htgt : 0 < target)
    (hne : selectAux tol target ranked 0 ≠ []) :
    sumRed (selectAux tol target ranked 0).dropLast < target := by
  set sel := selectAux tol target ranked 0 with hsel
  by_cases hd : sel.dropLast = []
  · rw [hd, sumRed_nil]
    exact htgt
  · have hseg : ∃ rest, sel.dropLast ++ rest = sel :=
      ⟨[sel.getLast hne], List.dropLast_append_getLast hne⟩
    have hlt : sel.dropLast ≠ sel := by
      intro he
      have hlen := congrArg List.length he
      rw [List.length_dropLast] at hlen
      cases hc : sel with
      | nil => exact hne hc
      | cons a l =>
        rw [hc] at hlen
        simp at hlen
    have hb := selectAux_below tol target ranked 0 sel.dropLast hseg hlt hd
    linarith

/-- [C6] Goal-0 input: target is 0, the first record alone already meets it,
yet removing it does not leave the cumulative sum strictly below 0. -/
def c6recs : List Rec := [⟨.str "A", 100, 1⟩, ⟨.str "B", 100, 1⟩]

/-- C6 counterexample: with two fully-automatable records of metric 100 and
a goal of 0%, the cost-variant selection keeps exactly record `A`
(total = 200 > 0, `selected` nonempty and ≠ the full positive-reducible
set), but removing that last element leaves a cumulative sum of 0, which is
NOT strictly below `target_amount = 0` — the claim fails when the target is
not positive. -/
theorem c6_counterexample :
    costCore c6recs 0 =
      .results [⟨.str "A", 100, 1, 100⟩, ⟨.str "B", 100, 1, 100⟩]
        [⟨.str "A", 100, 1, 100⟩] 100 ∧
    0 < totalOf c6recs ∧
    targetOf c6recs 0 = 0 ∧
    [(⟨.str "A", 100, 1, 100⟩ : RRec)] ≠
      posRed [⟨.str "A", 100, 1, 100⟩, ⟨.str "B", 100, 1, 100⟩] ∧
    ¬ sumRed ([(⟨.str "A", 100, 1, 100⟩ : RRec)].dropLast) < targetOf c6recs 0 := by
  refine ⟨by with_unfolding_all decide, by with_unfolding_all decide,
    by with_unfolding_all decide, by with_unfolding_all decide,
    by with_unfolding_all decide⟩

/-- C6 (amended): additionally assuming `target_amount > 0` (the claim as
stated fails at goal ≤ 0), in both selection variants: whenever the core
returns results, the selected subset is nonempty and differs from the full
positive-reducible set, removing the last element of `selected` leaves the
cumulative reducible amount strictly below `target_amount`. -/
theorem c6_minimality (recs : List Rec) (goal : ℚ) (ranked sel : List RRec) (cum : ℚ) :
    (costCore recs goal = .results ranked sel cum →
      0 < targetOf recs goal → sel ≠ [] → sel ≠ posRed ranked →
      sumRed sel.dropLast < targetOf recs goal) ∧
    (timeCore recs goal = .results ranked sel cum →
      0 < targetOf recs goal → sel ≠ [] → sel ≠ posRed ranked →
      sumRed sel.dropLast < targetOf recs goal) := by
  constructor
  · intro hres htgt hne _hfull
    rw [costCore] at hres
    split at hres
    · exact absurd hres (by simp)
    · injection hres with h1 h2 h3
      subst h1
      subst h2
      exact select_dropLast_lt tolCost (targetOf recs goal) (by norm_num [tolCost]) _ htgt hne
  · intro hres htgt hne _hfull
    rw [timeCore] at hres
    split at hres
    · exact absurd hres (by simp)
    · injection hres with h1 h2 h3
      subst h1
      subst h2
      exact select_dropLast_lt 0 (targetOf recs goal) le_rfl _ htgt hne

/-- [C6 witness] Three records of reducible amounts 5, 4, 3; goal 200/3 %
of total 12, i.e. target 8. -/
def c6wrecs : List Rec := [⟨.str "a", 5, 1⟩, ⟨.str "b", 4, 1⟩, ⟨.str "c", 3, 1⟩]

/-- Witness for C6: at target 8 both walks keep `[5, 4]`; dropping the last
kept record leaves 5 < 8. -/
theorem c6_minimality_witness :
    sumRed ([wr1, wr2].dropLast : List RRec) < targetOf c6wrecs (200/3) ∧
    sumRed ([wr1, wr2].dropLast : List RRec) < targetOf c6wrecs (200/3) := by
  constructor
  · exact (c6_minimality c6wrecs (200/3) [wr1, wr2, wr3] [wr1, wr2] 9).1
      (by with_unfolding_all decide) (by with_unfolding_all decide)
      (by with_unfolding_all decide) (by with_unfolding_all decide)
  · exact (c6_minimality c6wrecs (200/3) [wr1, wr2, wr3] [wr1, wr2] 9).2
      (by with_unfolding_all decide) (by with_unfolding_all decide)
      (by with_unfolding_all decide) (by with_unfolding_all decide)

end PMM

namespace PMM

/-- C10 (confirmed): when the core runs (total metric positive) and at least
one record has a positive reducible amount, the selected subset is nonempty
for every goal; and for a goal ≤ 0 (target ≤ 0) the first positive-reducible
record of the ranked order is still appended before the break test is
evaluated, so `selected` is exactly that one record, in both variants. -/
theorem c10_first_record (recs : List Rec) (goal : ℚ) (ranked sel : List RRec) (cum : ℚ) :
    (costCore recs goal = .results ranked sel cum →
      (∃ r ∈ recs, 0 < r.metric * r.rate) →
      sel ≠ [] ∧ (goal ≤ 0 → sel = (posRed ranked).take 1)) ∧
    (timeCore recs goal = .results ranked sel cum →
      0 < totalOf recs →
      (∃ r ∈ recs, 0 < r.metric * r.rate) →
      sel ≠ [] ∧ (goal ≤ 0 → sel = (posRed ranked).take 1)) := by
  constructor
  · intro hres hex
    rw [costCore] at hres
    split at hres
    · exact absurd hres (by simp)
    · rename_i htot
      push_neg at htot
      injection hres with h1 h2 h3
      subst h1
      subst h2
      obtain ⟨r, hmem, hpos⟩ := hex
      have hmem' : toRRec r ∈ recs.map toRRec := List.mem_map_of_mem toRRec hmem
      have hrank : toRRec r ∈ rankTwoKey recs := by
        rw [rankTwoKey, List.mem_insertionSort]
        exact hmem'
      constructor
      · exact selectAux_ne_nil tolCost (targetOf recs goal) _ 0 ⟨toRRec r, hrank, hpos⟩
      · intro hgoal
        have hq : goal / 100 ≤ 0 := by linarith
        have htgt : targetOf recs goal ≤ 0 := by
          rw [targetOf]
          exact mul_nonpos_iff.mpr (Or.inl ⟨le_of_lt htot, hq⟩)
        exact selectAux_take_one tolCost (targetOf recs goal)
          (by norm_num [tolCost]) _ 0 htgt
  · intro hres htot hex
    rw [timeCore] at hres
    split at hres
    · exact absurd hres (by simp)
    · injection hres with h1 h2 h3
      subst h1
      subst h2
      obtain ⟨r, hmem, hpos⟩ := hex
      have hmem' : toRRec r ∈ recs.map toRRec := List.mem_map_of_mem toRRec hmem
      have hrank : toRRec r ∈ rankTime recs := by
        rw [rankTime, List.mem_insertionSort]
        exact hmem'
      constructor
      · exact selectAux_ne_nil 0 (targetOf recs goal) _ 0 ⟨toRRec r, hrank, hpos⟩
      · intro hgoal
        have hq : goal / 100 ≤ 0 := by linarith
        have htgt : targetOf recs goal ≤ 0 := by
          rw [targetOf]
          exact mul_nonpos_iff.mpr (Or.inl ⟨le_of_lt htot, hq⟩)
        exact selectAux_take_one 0 (targetOf recs goal) le_rfl _ 0 htgt

/-- [C10 witness] One record, automatable at 50%, goal 0%. -/
def c10recs : List Rec := [⟨.str "A", 10, 1/2⟩]

/-- Witness for C10: with goal 0 the single positive record is selected in
both variants. -/
theorem c10_first_record_witness :
    (([(⟨.str "A", 10, 1/2, 5⟩ : RRec)] : List RRec) ≠ [] ∧
      ((0 : ℚ) ≤ 0 → [(⟨.str "A", 10, 1/2, 5⟩ : RRec)] =
        (posRed [⟨.str "A", 10, 1/2, 5⟩]).take 1)) ∧
    (([(⟨.str "A", 10, 1/2, 5⟩ : RRec)] : List RRec) ≠ [] ∧
      ((0 : ℚ) ≤ 0 → [(⟨.str "A", 10, 1/2, 5⟩ : RRec)] =
        (posRed [⟨.str "A", 10, 1/2, 5⟩]).take 1)) := by
  constructor
  · exact (c10_first_record c10recs 0 [⟨.str "A", 10, 1/2, 5⟩]
        [⟨.str "A", 10, 1/2, 5⟩] 5).1
      (by with_unfolding_all decide) (by with_unfolding_all decide)
  · exact (c10_first_record c10recs 0 [⟨.str "A", 10, 1/2, 5⟩]
        [⟨.str "A", 10, 1/2, 5⟩] 5).2
      (by with_unfolding_all decide) (by with_unfolding_all decide)
      (by with_unfolding_all decide)

end PMM

namespace PMM

/-- [C7] A single record with negative metric: total is -10. -/
def negRecs : List Rec := [⟨.str "A", -10, 1/2⟩]

/-- C7 counterexample: with a strictly negative total metric the time
variant does NOT short-circuit — its guard is `total == 0`, not
`total <= 0` — and proceeds to ranking and selection (the record is merely
skipped by the walk). -/
theorem c7_counterexample :
    totalOf negRecs ≤ 0 ∧ totalOf negRecs ≠ 0 ∧
    timeCore negRecs 5 = .results [⟨.str "A", -10, 1/2, -5⟩] [] 0 ∧
    timeCore negRecs 5 ≠ .zeroTotal ∧
    costCore negRecs 5 = .zeroTotal := by
  refine ⟨by with_unfolding_all decide, by with_unfolding_all decide,
    by with_unfolding_all decide, by with_unfolding_all decide,
    by with_unfolding_all decide⟩

/-- C7 (amended): the cost and hours variants short-circuit whenever
`total_metric ≤ 0`, printing the informational message and exiting with
status 0 before any ranking or selection; the generic-duration variant
short-circuits (message, `sys.exit(0)`) only when `total_metric == 0` — a
strictly negative total proceeds to ranking and selection. -/
theorem c7_zero_total (recs : List Rec) (goal : ℚ) (t : Table) :
    (totalOf recs ≤ 0 → costCore recs goal = .zeroTotal) ∧
    (totalOf recs = 0 → timeCore recs goal = .zeroTotal) ∧
    (∀ a c r, findCol t.cols actCands = some a → findCol t.cols costCands = some c →
      findCol t.cols rateCands = some r → totalOf (costClean t a c r) ≤ 0 →
      costMain t goal = .zeroTotal "Total rework cost is 0. Nothing to reduce." 0) ∧
    (∀ recs2, timeFirstMissing (t.cols.map normName) = none →
      timeClean t = some recs2 → totalOf recs2 = 0 →
      timeMain t goal = .zeroTotal "Total execution time is 0. Nothing to reduce." 0) := by
  refine ⟨?_, ?_, ?_, ?_⟩
  · intro h
    rw [costCore, if_pos h]
  · intro h
    rw [timeCore, if_pos h]
  · intro a c r ha hc hr htot
    simp only [costMain, ha, hc, hr]
    rw [costCore, if_pos htot]
  · intro recs2 hmiss hclean htot
    simp only [timeMain, hmiss, hclean]
    rw [timeCore, if_pos htot]

/-- [C7 witness] A well-formed cost table and a well-formed duration table
whose metric column sums to zero. -/
def zeroCostTable : Table :=
  ⟨["value", "total_rework_cost", "automation_rate"], [[.str "A", .num 0, .num (1/5)]]⟩

def zeroTimeTable : Table :=
  ⟨["value", "total_duration", "automation_rate"], [[.str "A", .num 0, .num (1/5)]]⟩

/-- Witness for C7: the amended theorem applied to concrete zero-total
tables of both variants. -/
theorem c7_zero_total_witness :
    costCore [⟨.str "A", 0, 1/5⟩] 5 = .zeroTotal ∧
    timeCore [⟨.str "A", 0, 1/5⟩] 5 = .zeroTotal ∧
    costMain zeroCostTable 5 = .zeroTotal "Total rework cost is 0. Nothing to reduce." 0 ∧
    timeMain zeroTimeTable 5 = .zeroTotal "Total execution time is 0. Nothing to reduce." 0 := by
  refine ⟨(c7_zero_total [⟨.str "A", 0, 1/5⟩] 5 zeroCostTable).1 (by with_unfolding_all decide),
    (c7_zero_total [⟨.str "A", 0, 1/5⟩] 5 zeroCostTable).2.1 (by with_unfolding_all decide),
    (c7_zero_total [⟨.str "A", 0, 1/5⟩] 5 zeroCostTable).2.2.1 "value" "total_rework_cost"
      "automation_rate" (by with_unfolding_all decide) (by with_unfolding_all decide)
      (by with_unfolding_all decide) (by with_unfolding_all decide),
    (c7_zero_total [⟨.str "A", 0, 1/5⟩] 5 zeroTimeTable).2.2.2
      [⟨.str "A", 0, 1/5⟩] (by with_unfolding_all decide)
      (by with_unfolding_all decide) (by with_unfolding_all decide)⟩

end PMM

namespace PMM

/-- C8 counterexample: on a table whose only column is `automation_rate`,
both `value` and `total_duration` are unresolved, yet the time variant
reports only `value` (its check loop exits at the first missing column), so
it does not report every missing logical column. -/
theorem c8_counterexample :
    timeMain ⟨["automation_rate"], []⟩ 5 =
      .missingCols ["value"] ["automation_rate"] 1 ∧
    (["automation_rate"] : List String).contains "total_duration" = false ∧
    ("total_duration" : String) ∉ (["value"] : List String) := by
  refine ⟨by with_unfolding_all decide, by with_unfolding_all decide,
    by with_unfolding_all decide⟩

/-- C8 (amended): the cost and hours variants report every missing logical
column by name (membership in the reported list is equivalent to the
resolution failing), together with the column list, and exit 2 without any
processing; the generic-duration variant also resolves case-insensitively,
prints the observed columns and exits nonzero (1) without processing, but it
reports only the FIRST missing logical column, not all of them. -/
theorem c8_missing_columns (t : Table) (goal : ℚ) :
    ("value/activity" ∈ costMissing t.cols ↔ findCol t.cols actCands = none) ∧
    ("Total rework cost" ∈ costMissing t.cols ↔ findCol t.cols costCands = none) ∧
    ("automation_rate" ∈ costMissing t.cols ↔ findCol t.cols rateCands = none) ∧
    (costMissing t.cols ≠ [] →
      costMain t goal = .missingCols (costMissing t.cols) t.cols 2) ∧
    (∀ c, timeFirstMissing (t.cols.map normName) = some c →
      timeMain t goal = .missingCols [c] (t.cols.map normName) 1 ∧
      (t.cols.map normName).contains c = false) ∧
    (2 : ℕ) ≠ 0 ∧ (1 : ℕ) ≠ 0 := by
  refine ⟨?_, ?_, ?_, ?_, ?_, by decide, by decide⟩
  · cases hA : findCol t.cols actCands <;> cases hC : findCol t.cols costCands <;>
      cases hR : findCol t.cols rateCands <;> simp [costMissing, hA, hC, hR]
  · cases hA : findCol t.cols actCands <;> cases hC : findCol t.cols costCands <;>
      cases hR : findCol t.cols rateCands <;> simp [costMissing, hA, hC, hR]
  · cases hA : findCol t.cols actCands <;> cases hC : findCol t.cols costCands <;>
      cases hR : findCol t.cols rateCands <;> simp [costMissing, hA, hC, hR]
  · intro hmiss
    rcases hA : findCol t.cols actCands with _ | a <;>
      rcases hC : findCol t.cols costCands with _ | c <;>
        rcases hR : findCol t.cols rateCands with _ | r <;>
      simp only [costMain, hA, hC, hR]
    exact absurd (by simp [costMissing, hA, hC, hR]) hmiss
  · intro c hc
    constructor
    · simp only [timeMain, hc]
    · rw [timeFirstMissing] at hc
      have hp := List.find?_some hc
      simpa using hp

end PMM

namespace PMM

/-- Witness for C8: the amended theorem applied to the concrete
one-column table `["automation_rate"]` (both `value` and the metric column
missing). -/
theorem c8_missing_columns_witness :
    costMain ⟨["automation_rate"], []⟩ 5 =
      .missingCols (costMissing ["automation_rate"]) ["automation_rate"] 2 ∧
    timeMain ⟨["automation_rate"], []⟩ 5 =
      .missingCols ["value"] (["automation_rate"].map normName) 1 ∧
    ((["automation_rate"].map normName).contains "value") = false := by
  refine ⟨(c8_missing_columns ⟨["automation_rate"], []⟩ 5).2.2.2.1
      (by with_unfolding_all decide), ?_, ?_⟩
  · exact ((c8_missing_columns ⟨["automation_rate"], []⟩ 5).2.2.2.2.1 "value"
      (by with_unfolding_all decide)).1
  · exact ((c8_missing_columns ⟨["automation_rate"], []⟩ 5).2.2.2.2.1 "value"
      (by with_unfolding_all decide)).2

end PMM
